import Mathlib

/-!
A verification development for the factor-analysis engine described by the
repository's specification, together with direct embeddings of the two code
fragments implemented in the notebooks themselves (`MyFactor.compute` in
`Factor Analysis.ipynb` and `ma_crossover_handling` in
`Algo Trading Tutorial - Lesson 3`).  The statistical engine itself
(alignment, quantile bucketing, performance metrics) is delegated by the
notebooks to the external `alphalens` library, so those components are
modelled from the specification.  Machine floats are modelled by rationals;
an undefined value (NaN or a missing cell) is modelled by `Option`.
-/

/-- Arithmetic mean of a list of rationals (`.mean()`); the empty list gives
`0 / 0 = 0`, a case never relied upon by the theorems below. -/
def listMean (xs : List ℚ) : ℚ := xs.sum / xs.length

/-- Division with an explicit undefined result on a zero divisor, modelling a
float division whose result is not a well-defined number. -/
def qdiv (a b : ℚ) : Option ℚ := if b = 0 then none else some (a / b)

/-- Modelled from the spec: the alignment stage of
`get_clean_factor_and_forward_returns` (external `alphalens` code, absent from
the repository): `forward_return = price(asset, date+h) / price(asset, date) - 1`,
undefined when either price cell is missing or the base price is zero. -/
def forwardReturn (price : ℕ → ℕ → Option ℚ) (asset date h : ℕ) : Option ℚ :=
  match price asset date, price asset (date + h) with
  | some p0, some ph => if p0 = 0 then none else some (ph / p0 - 1)
  | _, _ => none

/-- `sma_50 = hist.mean()` from `ma_crossover_handling`: the mean of the whole
50-day price history. -/
def sma_50 (hist : List ℚ) : ℚ := listMean hist

/-- `sma_20 = hist[:-20].mean()` from `ma_crossover_handling`: the mean of the
history with its last 20 entries removed (Python slice `[:-20]`). -/
def sma_20 (hist : List ℚ) : ℚ := listMean (hist.take (hist.length - 20))

/-- `ma_crossover_handling` from the Algo Trading Lesson 3 notebook, reduced
to its ordering decision: the result is the argument passed to
`order_target_percent` (`none` when no order is placed); `hasOpenOrder` models
`context.aapl in get_open_orders()`. -/
def ma_crossover_handling (hist : List ℚ) (hasOpenOrder : Bool) : Option ℚ :=
  if sma_50 hist < sma_20 hist then (if hasOpenOrder then none else some 1)
  else if sma_20 hist < sma_50 hist then (if hasOpenOrder then none else some (-1))
  else none

/-- A 50-entry history whose oldest 30 prices are `0` and newest 20 are `1`,
separating `sma_20` from a 20-day moving average of the latest prices. -/
def demoHist : List ℚ := List.replicate 30 0 ++ List.replicate 20 1

/-- The numerator of `MyFactor.compute`:
`(prices[-21] - prices[-252])/prices[-252] - (prices[-1] - prices[-21])/prices[-21]`.
Row 0 of the 252-row window is `prices[-252]`, row 231 is `prices[-21]` and
row 251 is `prices[-1]`; neither divisor is guarded in the source. -/
def momNumerator (prices : Fin 252 → ℚ) : Option ℚ :=
  (qdiv (prices 231 - prices 0) (prices 0)).bind (fun r1 =>
    (qdiv (prices 251 - prices 231) (prices 231)).map (fun r2 => r1 - r2))

/-- The valid (non-NaN) entries of a window, as skipped by `np.nanstd`. -/
def nanClean (xs : List (Option ℚ)) : List ℚ := xs.filterMap id

/-- The square of `np.nanstd` (default `ddof=0`): the population variance of
the non-NaN entries of the window. -/
def nanVar (xs : List (Option ℚ)) : ℚ :=
  listMean ((nanClean xs).map (fun x => (x - listMean (nanClean xs)) ^ 2))

/-- The `Returns(window_length=126)` input column of `MyFactor` over its
252 rows: row `t` holds the 126-day percent change of the underlying price
history `p` ending at row `t`. -/
def returnsOf (p : ℕ → ℚ) : List (Option ℚ) :=
  (List.range 252).map (fun t => qdiv (p (t + 125) - p t) (p t))

/-- `MyFactor.compute` for one asset: `out = momNumerator / s` where `s`
stands for `np.nanstd(returns, axis=0)` for that asset.  Since that standard
deviation is an irrational square root in general, the theorems quantify over
`s` constrained by `0 ≤ s` and `s ^ 2 = nanVar rets`. -/
def myFactorCompute (prices : Fin 252 → ℚ) (s : ℚ) : Option ℚ :=
  (momNumerator prices).bind (fun num => qdiv num s)

/-- One factor observation inside a single date's cross-section. -/
structure FactorObs where
  asset : ℕ
  score : ℚ
deriving DecidableEq

/-- The stable ascending order used for bucketing: by raw score, with ties
broken deterministically by ascending asset id (the spec's tie-break). -/
def obsLE (a b : FactorObs) : Prop :=
  a.score < b.score ∨ (a.score = b.score ∧ a.asset ≤ b.asset)

instance : DecidableRel obsLE := fun a b =>
  decidable_of_iff (a.score < b.score ∨ (a.score = b.score ∧ a.asset ≤ b.asset))
    Iff.rfl

instance : IsTotal FactorObs obsLE where
  total a b := by
    rcases lt_trichotomy a.score b.score with h | h | h
    · exact Or.inl (Or.inl h)
    · rcases le_total a.asset b.asset with h2 | h2
      · exact Or.inl (Or.inr ⟨h, h2⟩)
      · exact Or.inr (Or.inr ⟨h.symm, h2⟩)
    · exact Or.inr (Or.inl h)

instance : IsTrans FactorObs obsLE where
  trans a b c hab hbc := by
    rcases hab with h1 | ⟨e1, l1⟩ <;> rcases hbc with h2 | ⟨e2, l2⟩
    · exact Or.inl (h1.trans h2)
    · exact Or.inl (h1.trans_eq e2)
    · exact Or.inl (e1.trans_lt h2)
    · exact Or.inr ⟨e1.trans e2, l1.trans l2⟩

/-- A date's cross-section sorted ascending by (score, asset id). -/
def sortedObs (recs : List FactorObs) : List FactorObs :=
  List.insertionSort obsLE recs

/-- The quantile bucket of the record at sorted position `i` out of `N`:
`i * Q / N + 1`, so bucket 1 holds the lowest scores and bucket `Q` the
highest, with population-equalized (quantile-of-rank) boundaries. -/
def bucketOfIdx (N Q i : ℕ) : ℕ := i * Q / N + 1

/-- Modelled from the spec: per-date quantile bucketing of
`get_clean_factor_and_forward_returns` (external `alphalens` code): rank the
date's records ascending with the stable tie-break and cut the ranking into
`Q` equal-population groups. -/
def quantize (Q : ℕ) (recs : List FactorObs) : List (FactorObs × ℕ) :=
  (sortedObs recs).enum.map
    (fun p => (p.2, bucketOfIdx (sortedObs recs).length Q p.1))

/-- The set of assets assigned to bucket `b` on a date. -/
def bucketAssets (Q : ℕ) (recs : List FactorObs) (b : ℕ) : Finset ℕ :=
  (((quantize Q recs).filter (fun p => p.2 = b)).map (fun p => p.1.asset)).toFinset

/-- Modelled from the spec: `quantile_turnover` (external `alphalens` code)
for one date: `|current_set - previous_set| / |previous_set|`, undefined when
the previous-period set is empty. -/
def quantile_turnover (current previous : Finset ℕ) : Option ℚ :=
  if previous = ∅ then none
  else some (((current \ previous).card : ℚ) / previous.card)

/-- Modelled from the spec: `factor_returns` (external `alphalens` code) for
one date and horizon; `recs` pairs each asset's raw score with its forward
return.  Weights are the demeaned scores normalised by the sum of their
absolute values; when that sum is zero — which happens exactly when the date
has fewer than two distinct scores — the computation fails explicitly
(`none`) instead of silently producing a number. -/
def factor_returns (recs : List (ℚ × ℚ)) : Option ℚ :=
  let m := listMean (recs.map Prod.fst)
  let absSum := (recs.map (fun r => |r.1 - m|)).sum
  if absSum = 0 then none
  else some ((recs.map (fun r => (r.1 - m) / absSum * r.2)).sum)

/-- Modelled from the spec: the rank of asset `i` within a date's
cross-section `v` — the number of assets with a strictly smaller value. -/
def scoreRank {n : ℕ} (v : Fin n → ℚ) (i : Fin n) : ℕ :=
  (Finset.univ.filter (fun j => v j < v i)).card

/-- Modelled from the spec: the daily information coefficient
(`factor_information_coefficient`, external `alphalens` code): the Spearman
rank correlation between raw score and forward return, written with the
rank-difference formula `1 - 6 Σ d² / (n (n² - 1))`, which is exact for
cross-sections whose values have distinct ranks. -/
def spearmanIC {n : ℕ} (x y : Fin n → ℚ) : ℚ :=
  1 - 6 * (∑ i, ((scoreRank x i : ℚ) - (scoreRank y i : ℚ)) ^ 2) /
    (n * (n ^ 2 - 1))

/-- Sum of squared deviations of a sample about its mean. -/
def sumSqDev (xs : List ℚ) : ℚ := (xs.map (fun x => (x - listMean xs) ^ 2)).sum

/-- Sample variance (`ddof = 1`), the square of the sample standard
deviation. -/
def sampleVar (xs : List ℚ) : ℚ := sumSqDev xs / ((xs.length : ℚ) - 1)

/-- Modelled from the spec: the square of the standard error reported by
`mean_return_by_quantile`: `(sample std / sqrt n)² = sampleVar / n`.  Working
with the square avoids the irrational square root; since both standard errors
are nonnegative, `SE' = SE / sqrt N` is equivalent to `seSq' = seSq / N`. -/
def seSq (xs : List ℚ) : ℚ := sampleVar xs / xs.length

/-- A quantile's observation list duplicated `N` times. -/
def dupObs (N : ℕ) (xs : List ℚ) : List ℚ := (List.replicate N xs).flatten

/-- A raw factor-source row: (date, asset, raw score). -/
structure FactorRow where
  date : ℕ
  asset : ℕ
  raw_score : ℚ

/-- Fatal, caller-facing configuration problems (the only conditions that
terminate a run). -/
inductive ConfigurationError where
  | invalidHorizon : ConfigurationError
  | invalidQ : ConfigurationError
  | noOverlap : ConfigurationError

/-- Counts of per-record and per-date data issues absorbed during a run. -/
structure Diagnostics where
  droppedRecords : ℕ
  skippedDates : ℕ

/-- The result structure of a completed run: the bucketed records tagged with
their date, plus the attached diagnostics summary. -/
structure RunResult where
  records : List ((ℕ × FactorObs) × ℕ)
  diagnostics : Diagnostics

/-- Price lookup in a (date, asset, price) table. -/
def priceLookup (table : List (ℕ × ℕ × ℚ)) (asset date : ℕ) : Option ℚ :=
  (table.find? (fun r => r.1 = date && r.2.1 = asset)).map (fun r => r.2.2)

/-- Whether at least one configured horizon yields a defined forward return
for the observation (records failing this are dropped with a diagnostic). -/
def obsForwardDefined (horizons : List ℕ) (table : List (ℕ × ℕ × ℚ))
    (date : ℕ) (o : FactorObs) : Bool :=
  horizons.any (fun h => (forwardReturn (priceLookup table) o.asset date h).isSome)

/-- Modelled from the spec: processing of a single date — drop records with no
resolvable forward return (counting them), then either skip the date when it
has fewer than `Q` distinct scores (counting it) or bucket it.  Returns
(records, dropped-record count, skipped-date count). -/
def processDate (Q : ℕ) (horizons : List ℕ) (table : List (ℕ × ℕ × ℚ))
    (factor : List FactorRow) (d : ℕ) :
    List ((ℕ × FactorObs) × ℕ) × ℕ × ℕ :=
  let obs := (factor.filter (fun r => r.date = d)).map
    (fun r => FactorObs.mk r.asset r.raw_score)
  let kept := obs.filter (fun o => obsForwardDefined horizons table d o)
  let dropped := obs.length - kept.length
  if ((kept.map FactorObs.score).dedup).length < Q then ([], dropped, 1)
  else ((quantize Q kept).map (fun p => ((d, p.1), p.2)), dropped, 0)

/-- Modelled from the spec: the whole engine.  Configuration problems — a
non-positive horizon, `Q < 2`, or no overlapping dates between the factor and
price sources — are raised immediately; every per-record or per-date data
issue is absorbed by `processDate` as a dropped/skipped slice with a
diagnostic count, and a completed run returns a `RunResult` with the attached
diagnostics summary. -/
def runAnalysis (Q : ℕ) (horizons : List ℕ) (factor : List FactorRow)
    (table : List (ℕ × ℕ × ℚ)) : Except ConfigurationError RunResult :=
  if ∃ h ∈ horizons, h = 0 then Except.error ConfigurationError.invalidHorizon
  else if Q < 2 then Except.error ConfigurationError.invalidQ
  else if ∀ d ∈ factor.map FactorRow.date, d ∉ table.map (fun r => r.1) then
    Except.error ConfigurationError.noOverlap
  else
    let per := ((factor.map FactorRow.date).dedup).map
      (processDate Q horizons table factor)
    Except.ok
      { records := (per.map (fun t => t.1)).flatten
        diagnostics :=
          { droppedRecords := (per.map (fun t => t.2.1)).sum
            skippedDates := (per.map (fun t => t.2.2)).sum } }

/-! ## Theorems -/

/-- C1: the alignment stage computes `forward_return` as
`price(asset, date+h) / price(asset, date) - 1` exactly whenever both price
cells are present (and the base price nonzero), and on a synthetic price
series that is constantly `1` every forward return is defined and equals `0`,
for every asset, date and horizon. -/
theorem forwardReturn_exact_and_flat (price : ℕ → ℕ → Option ℚ)
    (asset date h : ℕ) :
    (∀ p0 ph : ℚ, price asset date = some p0 → price asset (date + h) = some ph →
      p0 ≠ 0 → forwardReturn price asset date h = some (ph / p0 - 1)) ∧
    ((∀ a d, price a d = some 1) → forwardReturn price asset date h = some 0) := by
  constructor
  · intro p0 ph h0 hh hne
    simp [forwardReturn, h0, hh, hne]
  · intro hflat
    simp [forwardReturn, hflat asset date, hflat asset (date + h)]

/-- Witness for C1 at the constant price series `1`, asset `0`, date `3`,
horizon `5`. -/
theorem forwardReturn_exact_and_flat_witness :
    forwardReturn (fun _ _ => some 1) 0 3 5 = some (1 / 1 - 1) ∧
    forwardReturn (fun _ _ => some 1) 0 3 5 = some 0 :=
  ⟨(forwardReturn_exact_and_flat (fun _ _ => some 1) 0 3 5).1 1 1 rfl rfl
      one_ne_zero,
   (forwardReturn_exact_and_flat (fun _ _ => some 1) 0 3 5).2 (fun _ _ => rfl)⟩

/-- C10: on a 50-element history `sma_20` is the arithmetic mean of the oldest
30 prices (all elements except the 20 most recent) rather than a 20-day moving
average of the latest prices (on `demoHist` the mean of the newest 20 prices
is `1` while `sma_20` is `0`), `sma_50` is the mean of all 50, and when the
two means are equal neither branch executes and no order is placed. -/
theorem ma_crossover_sma20_oldest30 :
    (∀ (hist : List ℚ) (b : Bool), hist.length = 50 →
      (sma_20 hist = (hist.take 30).sum / 30 ∧ sma_50 hist = hist.sum / 50 ∧
        (sma_20 hist = sma_50 hist → ma_crossover_handling hist b = none))) ∧
    sma_20 demoHist = 0 ∧ listMean (demoHist.drop 30) = 1 := by
  refine ⟨fun hist b hlen => ⟨?_, ?_, fun heq => ?_⟩, ?_, ?_⟩
  · simp [sma_20, listMean, hlen, List.length_take]
  · simp [sma_50, listMean, hlen]
  · simp [ma_crossover_handling, heq]
  · norm_num [sma_20, listMean, demoHist, List.take_append, List.take_replicate,
      List.sum_replicate, List.length_take]
  · norm_num [listMean, demoHist, List.drop_append, List.drop_replicate,
      List.sum_replicate]

/-- Witness for C10 at `demoHist` (and, for the equal-means branch, at a
constant history, where no order is placed). -/
theorem ma_crossover_sma20_oldest30_witness :
    sma_20 demoHist = (demoHist.take 30).sum / 30 ∧
    ma_crossover_handling (List.replicate 50 1) false = none :=
  ⟨(ma_crossover_sma20_oldest30.1 demoHist false (by simp [demoHist])).1,
   (ma_crossover_sma20_oldest30.1 (List.replicate 50 1) false (by simp)).2.2
      (by norm_num [sma_20, sma_50, listMean, List.take_replicate,
        List.sum_replicate, List.length_take])⟩

theorem nanClean_map_some {α : Type} (l : List α) (f : α → ℚ) :
    nanClean (l.map (fun a => some (f a))) = l.map f := by
  induction l with
  | nil => rfl
  | cons a t ih =>
    simp only [nanClean, List.map_cons, List.filterMap_cons] at ih ⊢
    simp [ih]

theorem listMean_map_zero {α : Type} (l : List α) :
    listMean (l.map (fun _ => (0 : ℚ))) = 0 := by
  have h : (l.map (fun _ => (0 : ℚ))).sum = 0 :=
    List.sum_eq_zero (fun x hx => by
      obtain ⟨a, _, rfl⟩ := List.mem_map.mp hx; rfl)
  simp [listMean, h]

/-- C9: in `MyFactor.compute` none of the three divisors is guarded: the
output is well-defined exactly when `prices[-252]`, `prices[-21]` and the
standard deviation of the returns window are all nonzero (the standard
deviation is nonzero exactly when the population variance is); and for a
window of constant positive prices the numerator is exactly `0` while
`nanstd(returns)` is `0`, so the factor value is undefined rather than `0`. -/
theorem myFactor_unguarded_divisors :
    (∀ (prices : Fin 252 → ℚ) (s : ℚ),
      (myFactorCompute prices s).isSome = true ↔
        (prices 0 ≠ 0 ∧ prices 231 ≠ 0 ∧ s ≠ 0)) ∧
    (∀ (rets : List (Option ℚ)) (s : ℚ), 0 ≤ s → s ^ 2 = nanVar rets →
      (s = 0 ↔ nanVar rets = 0)) ∧
    (∀ c : ℚ, 0 < c →
      momNumerator (fun _ => c) = some 0 ∧
      nanVar (returnsOf (fun _ => c)) = 0 ∧
      ∀ s : ℚ, 0 ≤ s → s ^ 2 = nanVar (returnsOf (fun _ => c)) →
        myFactorCompute (fun _ => c) s = none) := by
  refine ⟨?_, ?_, ?_⟩
  · intro prices s
    by_cases h0 : prices 0 = 0 <;> by_cases h1 : prices 231 = 0 <;>
      by_cases hs : s = 0 <;>
      simp [myFactorCompute, momNumerator, qdiv, h0, h1, hs]
  · intro rets s _ hsq
    constructor
    · rintro rfl
      simpa using hsq.symm
    · intro h
      rw [h] at hsq
      exact (pow_eq_zero_iff (two_ne_zero)).mp hsq
  · intro c hc
    have hret : returnsOf (fun _ => c) =
        (List.range 252).map (fun _ => some (0 : ℚ)) := by
      unfold returnsOf
      refine List.map_congr_left (fun t _ => ?_)
      simp [qdiv, hc.ne']
    have hvar : nanVar (returnsOf (fun _ => c)) = 0 := by
      rw [nanVar, hret, nanClean_map_some _ (fun _ => (0 : ℚ)),
        listMean_map_zero, List.map_map]
      have hcomp : ((fun x : ℚ => (x - 0) ^ 2) ∘ fun _ : ℕ => (0 : ℚ)) =
          fun _ : ℕ => (0 : ℚ) := funext (fun _ => by norm_num)
      rw [hcomp, listMean_map_zero]
    refine ⟨by simp [momNumerator, qdiv, hc.ne'], hvar, ?_⟩
    intro s _ hsq
    rw [hvar] at hsq
    have hs0 : s = 0 := (pow_eq_zero_iff (two_ne_zero)).mp hsq
    simp [myFactorCompute, momNumerator, qdiv, hc.ne', hs0]

/-- Witness for C9: with all prices `1` and the (exact) standard deviation `1`
the factor is defined; with constant prices and the resulting zero standard
deviation it is undefined. -/
theorem myFactor_unguarded_divisors_witness :
    (myFactorCompute (fun _ => 1) 1).isSome = true ∧
    myFactorCompute (fun _ => 1) 0 = none := by
  constructor
  · exact (myFactor_unguarded_divisors.1 (fun _ => 1) 1).mpr
      ⟨one_ne_zero, one_ne_zero, one_ne_zero⟩
  · exact (myFactor_unguarded_divisors.2.2 1 one_pos).2.2 0 le_rfl
      (by rw [(myFactor_unguarded_divisors.2.2 1 one_pos).2.1]; norm_num)

theorem dupObs_length (N : ℕ) (xs : List ℚ) :
    (dupObs N xs).length = N * xs.length := by
  simp [dupObs, List.length_flatten, List.map_replicate, List.sum_replicate,
    smul_eq_mul]

theorem dupObs_sum (N : ℕ) (xs : List ℚ) : (dupObs N xs).sum = N * xs.sum := by
  simp [dupObs, List.sum_flatten, List.map_replicate, List.sum_replicate,
    nsmul_eq_mul]

theorem dupObs_map (N : ℕ) (xs : List ℚ) (f : ℚ → ℚ) :
    (dupObs N xs).map f = dupObs N (xs.map f) := by
  simp [dupObs, List.map_flatten, List.map_replicate]

/-- C7 counterexample: for the quantile observations `[0, 2]` duplicated
`N = 2` times, the squared standard error is `1/3`, not the `1/2` that an
exact `1 / sqrt N` shrink of the original standard error (here `1`) would
give; with nonnegative standard errors the squared comparison is equivalent
to the claim's. -/
theorem seSq_dup_not_inv_sqrt :
    seSq (dupObs 2 [0, 2]) = 1 / 3 ∧ seSq [0, 2] = 1 ∧
    seSq (dupObs 2 [0, 2]) ≠ seSq [0, 2] / 2 := by
  have h4 : dupObs 2 [0, 2] = [0, 2, 0, 2] := by
    simp [dupObs, List.replicate_succ]
  norm_num [h4, seSq, sampleVar, sumSqDev, listMean]

/-- C7 amended: with the sample standard deviation (`ddof = 1`) of the spec's
own standard-error definition, duplicating a quantile's `n ≥ 2` observations
`N ≥ 1` times multiplies the squared standard error by `(n-1)/(Nn-1)` —
equivalently it shrinks the standard error by `sqrt ((n-1)/(Nn-1))`, not
exactly `1/sqrt N` — and the standard error is still non-increasing. -/
theorem seSq_dup_exact (xs : List ℚ) (N : ℕ) (hn : 2 ≤ xs.length)
    (hN : 1 ≤ N) :
    seSq (dupObs N xs) =
      seSq xs * (((xs.length : ℚ) - 1) / ((N : ℚ) * xs.length - 1)) ∧
    seSq (dupObs N xs) ≤ seSq xs := by
  have hN1 : (1 : ℚ) ≤ (N : ℚ) := by exact_mod_cast hN
  have hN0 : (N : ℚ) ≠ 0 := by linarith
  have h2 : (2 : ℚ) ≤ (xs.length : ℚ) := by exact_mod_cast hn
  have hn0 : (xs.length : ℚ) ≠ 0 := by linarith
  have hn1pos : (0 : ℚ) < (xs.length : ℚ) - 1 := by linarith
  have hNlen : (xs.length : ℚ) ≤ (N : ℚ) * xs.length := by nlinarith
  have hNn1pos : (0 : ℚ) < (N : ℚ) * xs.length - 1 := by linarith
  have hmean : listMean (dupObs N xs) = listMean xs := by
    rw [listMean, listMean, dupObs_sum, dupObs_length]
    push_cast
    rw [mul_div_mul_left _ _ hN0]
  have hdev : sumSqDev (dupObs N xs) = N * sumSqDev xs := by
    simp only [sumSqDev]
    simp only [hmean]
    rw [dupObs_map, dupObs_sum]
  have hse : seSq (dupObs N xs) =
      seSq xs * (((xs.length : ℚ) - 1) / ((N : ℚ) * xs.length - 1)) := by
    simp only [seSq, sampleVar]
    rw [hdev, dupObs_length]
    push_cast
    field_simp
    ring
  refine ⟨hse, ?_⟩
  have hDnn : 0 ≤ sumSqDev xs := by
    refine List.sum_nonneg (fun x hx => ?_)
    obtain ⟨a, _, rfl⟩ := List.mem_map.mp hx
    positivity
  have hseNonneg : 0 ≤ seSq xs := by
    simp only [seSq, sampleVar]
    exact div_nonneg (div_nonneg hDnn hn1pos.le) (Nat.cast_nonneg _)
  have hfrac1 : ((xs.length : ℚ) - 1) / ((N : ℚ) * xs.length - 1) ≤ 1 := by
    rw [div_le_one hNn1pos]
    linarith
  rw [hse]
  exact mul_le_of_le_one_right hseNonneg hfrac1

/-- Witness for the amended C7 at `xs = [0, 2]`, `N = 2`. -/
theorem seSq_dup_exact_witness :
    seSq (dupObs 2 [0, 2]) =
      seSq [0, 2] * ((([0, 2] : List ℚ).length - 1 : ℚ) /
        (2 * (([0, 2] : List ℚ).length : ℚ) - 1)) ∧
    seSq (dupObs 2 [0, 2]) ≤ seSq [0, 2] :=
  seSq_dup_exact [0, 2] 2 (by norm_num) (by norm_num)

/-- C5: quantile turnover is `|current - previous| / |previous|` for every
date with a nonempty prior-period set (undefined otherwise), so identical
consecutive bucket assignments give turnover exactly `0`; and in the 3-asset
scenario with `Q = 3`, day-1 scores `A:1 B:2 C:3` and day-2 scores
`A:3 B:2 C:1` (assets `A = 0`, `B = 1`, `C = 2`), bucket 3 is `{C}` on day 1
and `{A}` on day 2, so its turnover is exactly `1`. -/
theorem quantile_turnover_spec :
    (∀ current previous : Finset ℕ, previous.Nonempty →
      quantile_turnover current previous =
        some (((current \ previous).card : ℚ) / previous.card)) ∧
    (∀ s : Finset ℕ, s.Nonempty → quantile_turnover s s = some 0) ∧
    (bucketAssets 3 [⟨0, 1⟩, ⟨1, 2⟩, ⟨2, 3⟩] 3 = {2} ∧
      bucketAssets 3 [⟨0, 3⟩, ⟨1, 2⟩, ⟨2, 1⟩] 3 = {0} ∧
      quantile_turnover (bucketAssets 3 [⟨0, 3⟩, ⟨1, 2⟩, ⟨2, 1⟩] 3)
        (bucketAssets 3 [⟨0, 1⟩, ⟨1, 2⟩, ⟨2, 3⟩] 3) = some 1) := by
  have h1 : bucketAssets 3 [⟨0, 1⟩, ⟨1, 2⟩, ⟨2, 3⟩] 3 = {2} := by decide
  have h2 : bucketAssets 3 [⟨0, 3⟩, ⟨1, 2⟩, ⟨2, 1⟩] 3 = {0} := by decide
  refine ⟨?_, ?_, h1, h2, ?_⟩
  · intro current previous hne
    rw [quantile_turnover, if_neg (Finset.nonempty_iff_ne_empty.mp hne)]
  · intro s hne
    rw [quantile_turnover, if_neg (Finset.nonempty_iff_ne_empty.mp hne)]
    simp [Finset.sdiff_self]
  · rw [h1, h2, quantile_turnover, if_neg (by decide)]
    norm_num [show (({0} : Finset ℕ) \ {2}).card = 1 from by decide,
      show ({2} : Finset ℕ).card = 1 from by decide]

/-- Witness for C5 at the unchanged bucket set `{1, 2}`. -/
theorem quantile_turnover_spec_witness :
    quantile_turnover {1, 2} {1, 2} = some 0 :=
  quantile_turnover_spec.2.1 {1, 2} (by decide)

theorem list_sum_eq_zero_iff_of_nonneg (l : List ℚ) :
    (∀ x ∈ l, 0 ≤ x) → (l.sum = 0 ↔ ∀ x ∈ l, x = 0) := by
  induction l with
  | nil => simp
  | cons a t ih =>
    intro h
    have ha : 0 ≤ a := h a (List.mem_cons_self a t)
    have ht : ∀ x ∈ t, 0 ≤ x := fun x hx => h x (List.mem_cons_of_mem a hx)
    have hts : 0 ≤ t.sum := List.sum_nonneg ht
    rw [List.sum_cons]
    constructor
    · intro h0
      have ha0 : a = 0 := by linarith
      have hs0 : t.sum = 0 := by linarith
      intro x hx
      rcases List.mem_cons.mp hx with rfl | hx2
      · exact ha0
      · exact ((ih ht).mp hs0) x hx2
    · intro hall
      have ha0 : a = 0 := hall a (List.mem_cons_self a t)
      have hs0 : t.sum = 0 :=
        (ih ht).mpr (fun x hx => hall x (List.mem_cons_of_mem a hx))
      rw [ha0, hs0, add_zero]

theorem sum_abs_dev_eq_zero_iff (l : List ℚ) (m : ℚ) :
    ((l.map (fun x => |x - m|)).sum = 0) ↔ ∀ x ∈ l, x = m := by
  rw [list_sum_eq_zero_iff_of_nonneg _ (fun y hy => by
    obtain ⟨x, _, rfl⟩ := List.mem_map.mp hy
    exact abs_nonneg _)]
  constructor
  · intro h x hx
    have h2 := h _ (List.mem_map_of_mem (fun x => |x - m|) hx)
    rwa [abs_eq_zero, sub_eq_zero] at h2
  · intro h y hy
    obtain ⟨x, hx, rfl⟩ := List.mem_map.mp hy
    rw [h x hx, sub_self, abs_zero]

theorem dedup_length_le_one_iff (l : List ℚ) :
    l.dedup.length ≤ 1 ↔ ∀ a ∈ l, ∀ b ∈ l, a = b := by
  constructor
  · intro h a ha b hb
    have ha2 : a ∈ l.dedup := List.mem_dedup.mpr ha
    have hb2 : b ∈ l.dedup := List.mem_dedup.mpr hb
    rcases hd : l.dedup with _ | ⟨c, t⟩
    · rw [hd] at ha2
      simp at ha2
    · rw [hd] at ha2 hb2 h
      have ht : t = [] := by
        cases t with
        | nil => rfl
        | cons d u => simp at h
      subst ht
      simp at ha2 hb2
      rw [ha2, hb2]
  · intro h
    rcases hd : l.dedup with _ | ⟨c, t⟩
    · simp
    · rcases ht : t with _ | ⟨d, u⟩
      · simp
      · exfalso
        have hnd : l.dedup.Nodup := l.nodup_dedup
        rw [hd, ht] at hnd
        have hcd : c ≠ d := by
          have h2 := List.nodup_cons.mp hnd
          exact fun e => h2.1 (e ▸ List.mem_cons_self d u)
        have hc : c ∈ l := List.mem_dedup.mp (by
          rw [hd]; exact List.mem_cons_self c t)
        have hdl : d ∈ l := List.mem_dedup.mp (by
          rw [hd, ht]; exact List.mem_cons_of_mem c (List.mem_cons_self d u))
        exact hcd (h c hc d hdl)

theorem all_eq_mean (l : List ℚ) (hl : l ≠ []) :
    (∀ a ∈ l, ∀ b ∈ l, a = b) ↔ ∀ x ∈ l, x = listMean l := by
  constructor
  · intro h x hx
    have hsum : l.sum = l.length • x :=
      List.sum_eq_card_nsmul l x (fun b hb => h b hb x hx)
    have hlen : (l.length : ℚ) ≠ 0 := by
      have : l.length ≠ 0 := fun h0 => hl (List.length_eq_zero.mp h0)
      exact_mod_cast this
    rw [listMean, hsum, nsmul_eq_mul, mul_div_cancel_left₀ _ hlen]
  · intro h a ha b hb
    rw [h a ha, h b hb]

/-- C3: for every nonempty date cross-section, the factor-weighted long-short
return fails explicitly (`none`) exactly when the date has fewer than 2
distinct raw scores — an explicit failure rather than the insufficient-data
marker of the general error policy — and with at least 2 distinct scores the
absolute weights (demeaned scores scaled by the sum of absolute deviations)
sum to exactly 1 and the result is the weight-by-forward-return sum. -/
theorem factor_returns_spec (recs : List (ℚ × ℚ)) (hne : recs ≠ []) :
    (factor_returns recs = none ↔ ((recs.map Prod.fst).dedup).length < 2) ∧
    (2 ≤ ((recs.map Prod.fst).dedup).length →
      ((recs.map (fun r => |(r.1 - listMean (recs.map Prod.fst)) /
          ((recs.map (fun p => |p.1 - listMean (recs.map Prod.fst)|)).sum)|)).sum
            = 1 ∧
       factor_returns recs = some ((recs.map (fun r =>
          (r.1 - listMean (recs.map Prod.fst)) /
            ((recs.map (fun p => |p.1 - listMean (recs.map Prod.fst)|)).sum)
              * r.2)).sum))) := by
  have hsne : recs.map Prod.fst ≠ [] := by simpa using hne
  set m := listMean (recs.map Prod.fst) with hm
  set A := (recs.map (fun r : ℚ × ℚ => |r.1 - m|)).sum with hA
  have habs : (recs.map (fun r : ℚ × ℚ => |r.1 - m|)) =
      (recs.map Prod.fst).map (fun x => |x - m|) := by
    rw [List.map_map]
    rfl
  have hA0iff : A = 0 ↔ ((recs.map Prod.fst).dedup).length ≤ 1 := by
    rw [hA, habs, sum_abs_dev_eq_zero_iff, dedup_length_le_one_iff, hm]
    exact (all_eq_mean _ hsne).symm
  have hfr : factor_returns recs =
      if A = 0 then none
      else some ((recs.map (fun r => (r.1 - m) / A * r.2)).sum) := by
    rw [factor_returns]
  constructor
  · rw [hfr]
    by_cases h0 : A = 0
    · rw [if_pos h0]
      have hle := hA0iff.mp h0
      exact ⟨fun _ => by omega, fun _ => rfl⟩
    · rw [if_neg h0]
      constructor
      · intro h
        exact absurd h (Option.some_ne_none _)
      · intro hlt
        exact absurd (hA0iff.mpr (by omega)) h0
  · intro hdist
    have h0 : A ≠ 0 := fun h => by
      have := hA0iff.mp h
      omega
    have hAnn : 0 ≤ A := by
      rw [hA]
      exact List.sum_nonneg (fun x hx => by
        obtain ⟨r, _, rfl⟩ := List.mem_map.mp hx
        exact abs_nonneg _)
    have hApos : 0 < A := lt_of_le_of_ne hAnn (Ne.symm h0)
    constructor
    · have hw : (recs.map (fun r : ℚ × ℚ => |(r.1 - m) / A|)) =
          recs.map (fun r : ℚ × ℚ => |r.1 - m| * A⁻¹) :=
        List.map_congr_left (fun r _ => by
          rw [abs_div, abs_of_pos hApos, div_eq_mul_inv])
      rw [hw, List.sum_map_mul_right, ← hA, mul_inv_cancel₀ h0]
    · rw [hfr, if_neg h0]

/-- Witness for C3 at the 2-asset cross-section with scores 0, 2 and forward
returns 5, 7. -/
theorem factor_returns_spec_witness :
    ([((0 : ℚ), (5 : ℚ)), ((2 : ℚ), (7 : ℚ))].map (fun r =>
      |(r.1 - listMean ([((0 : ℚ), (5 : ℚ)), ((2 : ℚ), (7 : ℚ))].map Prod.fst)) /
        (([((0 : ℚ), (5 : ℚ)), ((2 : ℚ), (7 : ℚ))].map (fun p =>
          |p.1 - listMean ([((0 : ℚ), (5 : ℚ)), ((2 : ℚ), (7 : ℚ))].map
            Prod.fst)|)).sum)|)).sum = 1 :=
  ((factor_returns_spec [((0 : ℚ), (5 : ℚ)), ((2 : ℚ), (7 : ℚ))]
    (by simp)).2 (by decide)).1

theorem quantize_mem_iff (Q : ℕ) (recs : List FactorObs) (p : FactorObs × ℕ) :
    p ∈ quantize Q recs ↔ ∃ i : ℕ, ∃ h : i < (sortedObs recs).length,
      p = ((sortedObs recs).get ⟨i, h⟩,
        bucketOfIdx (sortedObs recs).length Q i) := by
  simp only [quantize, List.mem_map]
  constructor
  · rintro ⟨x, hx, rfl⟩
    obtain ⟨h, he⟩ := List.getElem?_eq_some.mp (List.mem_enum_iff_getElem?.mp hx)
    refine ⟨x.1, h, ?_⟩
    rw [List.get_eq_getElem, he]
  · rintro ⟨i, h, rfl⟩
    refine ⟨(i, (sortedObs recs).get ⟨i, h⟩), ?_, rfl⟩
    rw [List.mem_enum_iff_getElem?, List.getElem?_eq_some]
    exact ⟨h, by simp⟩

theorem nat_ceil_div_le_iff (a Q i : ℕ) (hQ : 0 < Q) :
    (a + Q - 1) / Q ≤ i ↔ a ≤ i * Q := by
  rw [Nat.div_le_iff_le_mul_add_pred hQ, Nat.mul_comm]
  set b := i * Q
  omega

theorem nat_lt_ceil_div_iff (a Q i : ℕ) (hQ : 0 < Q) :
    i < (a + Q - 1) / Q ↔ i * Q < a := by
  constructor
  · intro h
    by_contra hcon
    push_neg at hcon
    exact absurd ((nat_ceil_div_le_iff a Q i hQ).mpr hcon) (not_le.mpr h)
  · intro h
    by_contra hcon
    push_neg at hcon
    exact absurd h (not_lt.mpr ((nat_ceil_div_le_iff a Q i hQ).mp hcon))

theorem nat_div_eq_iff_between (N Q k i : ℕ) (hN : 0 < N) :
    i * Q / N = k ↔ k * N ≤ i * Q ∧ i * Q < (k + 1) * N := by
  constructor
  · intro h
    constructor
    · rw [← h]
      exact (Nat.le_div_iff_mul_le hN).mp le_rfl
    · have hlt : i * Q / N < k + 1 := by rw [h]; exact Nat.lt_succ_self k
      exact (Nat.div_lt_iff_lt_mul hN).mp hlt
  · rintro ⟨h1, h2⟩
    have hle : k ≤ i * Q / N := (Nat.le_div_iff_mul_le hN).mpr h1
    have hlt : i * Q / N < k + 1 := (Nat.div_lt_iff_lt_mul hN).mpr h2
    exact le_antisymm (Nat.lt_succ_iff.mp hlt) hle

theorem mem_bucket_iff (N Q k i : ℕ) (hQ : 0 < Q) (hk : k < Q) (hN : 0 < N) :
    (i < N ∧ i * Q / N = k) ↔
      ((k * N + Q - 1) / Q ≤ i ∧ i < ((k + 1) * N + Q - 1) / Q) := by
  constructor
  · rintro ⟨hiN, hdivk⟩
    obtain ⟨h1, h2⟩ := (nat_div_eq_iff_between N Q k i hN).mp hdivk
    exact ⟨(nat_ceil_div_le_iff _ _ _ hQ).mpr h1,
      (nat_lt_ceil_div_iff _ _ _ hQ).mpr h2⟩
  · rintro ⟨h1, h2⟩
    have hb1 : k * N ≤ i * Q := (nat_ceil_div_le_iff _ _ _ hQ).mp h1
    have hb2 : i * Q < (k + 1) * N := (nat_lt_ceil_div_iff _ _ _ hQ).mp h2
    have hkN : (k + 1) * N ≤ Q * N := Nat.mul_le_mul_right N hk
    have hiQ : i * Q < N * Q := by
      have := lt_of_lt_of_le hb2 hkN
      rwa [Nat.mul_comm Q N] at this
    exact ⟨Nat.lt_of_mul_lt_mul_right hiQ,
      (nat_div_eq_iff_between N Q k i hN).mpr ⟨hb1, hb2⟩⟩

theorem bucket_filter_eq_Ico (N Q k : ℕ) (hQ : 0 < Q) (hk : k < Q)
    (hN : 0 < N) :
    (Finset.range N).filter (fun i => i * Q / N = k) =
      Finset.Ico ((k * N + Q - 1) / Q) (((k + 1) * N + Q - 1) / Q) := by
  ext i
  simp only [Finset.mem_filter, Finset.mem_range, Finset.mem_Ico]
  exact mem_bucket_iff N Q k i hQ hk hN

theorem ceil_div_bounds (a Q : ℕ) (hQ : 0 < Q) :
    a ≤ Q * ((a + Q - 1) / Q) ∧ Q * ((a + Q - 1) / Q) < a + Q := by
  constructor
  · have h := (nat_ceil_div_le_iff a Q ((a + Q - 1) / Q) hQ).mp le_rfl
    calc a ≤ ((a + Q - 1) / Q) * Q := h
    _ = Q * ((a + Q - 1) / Q) := Nat.mul_comm _ _
  · have h1 : ((a + Q - 1) / Q) * Q ≤ a + Q - 1 := Nat.div_mul_le_self _ _
    calc Q * ((a + Q - 1) / Q) = ((a + Q - 1) / Q) * Q := Nat.mul_comm _ _
    _ ≤ a + Q - 1 := h1
    _ < a + Q := by omega

theorem length_filter_eq_card_filter_range (N : ℕ) (p : ℕ → Prop)
    [DecidablePred p] :
    ((List.range N).filter (fun i => decide (p i))).length =
      ((Finset.range N).filter p).card := rfl

theorem quantize_filter_length (Q b : ℕ) (recs : List FactorObs) :
    ((quantize Q recs).filter (fun p => p.2 = b)).length =
      ((List.range recs.length).filter
        (fun i => bucketOfIdx recs.length Q i = b)).length := by
  have hlen : (sortedObs recs).length = recs.length :=
    (List.perm_insertionSort obsLE recs).length_eq
  have h3 : ∀ (l : List (ℕ × FactorObs)) (q : ℕ → Bool),
      (l.filter (fun x => q x.1)).length = ((l.map Prod.fst).filter q).length := by
    intro l q
    rw [List.filter_map, List.length_map]
    rfl
  simp only [quantize, hlen]
  rw [List.filter_map, List.length_map]
  have h4 : ((sortedObs recs).enum.filter
      ((fun x : FactorObs × ℕ => decide (x.2 = b)) ∘
        (fun p : ℕ × FactorObs => (p.2, bucketOfIdx recs.length Q p.1)))).length =
      ((sortedObs recs).enum.filter
        (fun x : ℕ × FactorObs =>
          decide (bucketOfIdx recs.length Q x.1 = b))).length := rfl
  rw [h4, h3 _ (fun i => decide (bucketOfIdx recs.length Q i = b)),
    List.enum_map_fst, hlen]

theorem bucket_size_bound (N Q b : ℕ) (hQ2 : 2 ≤ Q) (hNQ : Q ≤ N)
    (hb1 : 1 ≤ b) (hbQ : b ≤ Q) :
    |(((List.range N).filter (fun i => bucketOfIdx N Q i = b)).length : ℚ)
      - (N : ℚ) / Q| ≤ 1 := by
  have hQ0 : 0 < Q := by omega
  have hN0 : 0 < N := by omega
  set k := b - 1 with hkdef
  have hbk : b = k + 1 := by omega
  have hkQ : k < Q := by omega
  have hfil : (List.range N).filter (fun i => bucketOfIdx N Q i = b) =
      (List.range N).filter (fun i => i * Q / N = k) := by
    refine List.filter_congr (fun i _ => ?_)
    rw [decide_eq_decide]
    unfold bucketOfIdx
    rw [hbk]
    exact add_left_inj 1
  rw [hfil, length_filter_eq_card_filter_range N (fun i => i * Q / N = k),
    bucket_filter_eq_Ico N Q k hQ0 hkQ hN0, Nat.card_Ico]
  obtain ⟨hl1, hu1⟩ := ceil_div_bounds (k * N) Q hQ0
  obtain ⟨hl2, hu2⟩ := ceil_div_bounds ((k + 1) * N) Q hQ0
  have hmono : (k * N + Q - 1) / Q ≤ ((k + 1) * N + Q - 1) / Q := by
    refine Nat.div_le_div_right ?_
    have hkk : k * N ≤ (k + 1) * N := Nat.mul_le_mul_right N (Nat.le_succ k)
    omega
  set x := (k * N + Q - 1) / Q with hx
  set y := ((k + 1) * N + Q - 1) / Q with hy
  rw [Nat.cast_sub hmono]
  have hc1 : ((k : ℚ) * N) ≤ (Q : ℚ) * x := by exact_mod_cast hl1
  have hc2 : (Q : ℚ) * x < (k : ℚ) * N + Q := by exact_mod_cast hu1
  have hc3 : ((k : ℚ) + 1) * N ≤ (Q : ℚ) * y := by exact_mod_cast hl2
  have hc4 : (Q : ℚ) * y < ((k : ℚ) + 1) * N + Q := by exact_mod_cast hu2
  have hQpos : (0 : ℚ) < Q := by exact_mod_cast hQ0
  have key : ((y : ℚ) - x) - (N : ℚ) / Q =
      ((Q : ℚ) * y - (Q : ℚ) * x - N) / Q := by
    field_simp
    ring
  rw [key, abs_div, abs_of_pos hQpos, div_le_one hQpos, abs_le]
  constructor <;> nlinarith [hc1, hc2, hc3, hc4]

/-- C2: for every `Q ≥ 2` and every date whose cross-section has at least `Q`
distinct raw scores, bucketing assigns every record a bucket in `1..Q`, each
bucket's size is within ±1 of `N/Q`, and every member of bucket `Q` has a raw
score greater than or equal to every member of bucket 1 (ranking ascending
with the deterministic stable tie-break by asset id). -/
theorem quantize_partition_monotone (Q : ℕ) (recs : List FactorObs)
    (hQ : 2 ≤ Q) (hdist : Q ≤ ((recs.map FactorObs.score).dedup).length) :
    (∀ p ∈ quantize Q recs, 1 ≤ p.2 ∧ p.2 ≤ Q) ∧
    (∀ b, 1 ≤ b → b ≤ Q →
      |(((quantize Q recs).filter (fun p => p.2 = b)).length : ℚ)
        - (recs.length : ℚ) / Q| ≤ 1) ∧
    (∀ p ∈ quantize Q recs, ∀ q ∈ quantize Q recs,
      p.2 = Q → q.2 = 1 → q.1.score ≤ p.1.score) := by
  have hNQ : Q ≤ recs.length := by
    refine le_trans hdist (le_trans (List.Sublist.length_le
      (List.dedup_sublist _)) ?_)
    rw [List.length_map]
  have hQ0 : 0 < Q := by omega
  have hN0 : 0 < recs.length := by omega
  have hslen : (sortedObs recs).length = recs.length :=
    (List.perm_insertionSort obsLE recs).length_eq
  refine ⟨?_, ?_, ?_⟩
  · intro p hp
    obtain ⟨i, hi, rfl⟩ := (quantize_mem_iff Q recs p).mp hp
    refine ⟨Nat.le_add_left 1 _, ?_⟩
    have hiN : i < recs.length := hslen ▸ hi
    have hlt : i * Q / recs.length < Q := by
      rw [Nat.div_lt_iff_lt_mul hN0]
      have h1 : i * Q < recs.length * Q :=
        (Nat.mul_lt_mul_right hQ0).mpr hiN
      rwa [Nat.mul_comm recs.length Q] at h1
    show bucketOfIdx (sortedObs recs).length Q i ≤ Q
    rw [hslen]
    unfold bucketOfIdx
    exact hlt
  · intro b hb1 hbQ
    rw [quantize_filter_length]
    exact bucket_size_bound recs.length Q b hQ hNQ hb1 hbQ
  · intro p hp q hq hpQ hq1
    obtain ⟨i, hi, rfl⟩ := (quantize_mem_iff Q recs p).mp hp
    obtain ⟨j, hj, rfl⟩ := (quantize_mem_iff Q recs q).mp hq
    simp only [bucketOfIdx, hslen] at hpQ hq1
    have hdi : i * Q / recs.length = Q - 1 := by omega
    have hdj : j * Q / recs.length = 0 := by omega
    have hji : j < i := by
      by_contra hcon
      push_neg at hcon
      have hmono2 : i * Q / recs.length ≤ j * Q / recs.length :=
        Nat.div_le_div_right (Nat.mul_le_mul_right Q hcon)
      rw [hdi, hdj] at hmono2
      omega
    have hsorted : List.Sorted obsLE (sortedObs recs) :=
      List.sorted_insertionSort obsLE recs
    have hrel : obsLE ((sortedObs recs).get ⟨j, hj⟩)
        ((sortedObs recs).get ⟨i, hi⟩) := by
      have h5 := List.pairwise_iff_getElem.mp hsorted j i hj hi hji
      simpa [List.get_eq_getElem] using h5
    rcases hrel with h | ⟨h, _⟩
    · exact le_of_lt h
    · exact le_of_eq h

/-- Witness for C2 at `Q = 2` and the two-asset cross-section with scores
1 and 2: bucket 1's size is within ±1 of `N/Q = 1`. -/
theorem quantize_partition_monotone_witness :
    |(((quantize 2 [⟨0, (1 : ℚ)⟩, ⟨1, 2⟩]).filter
        (fun p => p.2 = 1)).length : ℚ)
      - (([⟨0, (1 : ℚ)⟩, ⟨1, 2⟩] : List FactorObs).length : ℚ) / 2| ≤ 1 :=
  (quantize_partition_monotone 2 [⟨0, (1 : ℚ)⟩, ⟨1, 2⟩] le_rfl
    (by decide)).2.1 1 le_rfl (by norm_num)

theorem scoreRank_lt {n : ℕ} (v : Fin n → ℚ) (i : Fin n) : scoreRank v i < n := by
  have hsub : (Finset.univ.filter (fun j => v j < v i)) ⊆
      Finset.univ.erase i := by
    intro j hj
    simp only [Finset.mem_filter] at hj
    refine Finset.mem_erase.mpr ⟨?_, Finset.mem_univ j⟩
    rintro rfl
    exact lt_irrefl _ hj.2
  have hcard : (Finset.univ.erase i).card = n - 1 := by
    rw [Finset.card_erase_of_mem (Finset.mem_univ i), Finset.card_univ,
      Fintype.card_fin]
  have hpos := i.pos
  calc scoreRank v i ≤ (Finset.univ.erase i).card := Finset.card_le_card hsub
  _ = n - 1 := hcard
  _ < n := by omega

theorem scoreRank_lt_of_lt {n : ℕ} (v : Fin n → ℚ) {i j : Fin n}
    (h : v i < v j) : scoreRank v i < scoreRank v j := by
  refine Finset.card_lt_card ?_
  rw [Finset.ssubset_iff_of_subset (by
    intro k hk
    simp only [Finset.mem_filter] at hk ⊢
    exact ⟨hk.1, hk.2.trans h⟩)]
  exact ⟨i, by simp [h], by simp⟩

theorem scoreRank_inj {n : ℕ} (v : Fin n → ℚ) (hv : Function.Injective v) :
    Function.Injective (fun i => scoreRank v i) := by
  intro i j hij
  by_contra hne
  have hvne : v i ≠ v j := fun e => hne (hv e)
  rcases lt_or_gt_of_ne hvne with h | h
  · exact absurd hij (Nat.ne_of_lt (scoreRank_lt_of_lt v h))
  · exact absurd hij.symm (Nat.ne_of_lt (scoreRank_lt_of_lt v h))

theorem scoreRank_eq_of_strictMono {n : ℕ} (y : Fin n → ℚ) (f : ℚ → ℚ)
    (hf : StrictMono f) (i : Fin n) :
    scoreRank (fun j => f (y j)) i = scoreRank y i := by
  unfold scoreRank
  congr 1
  refine Finset.filter_congr (fun j _ => ?_)
  simp [hf.lt_iff_lt]

theorem scoreRank_add_of_strictAnti {n : ℕ} (y : Fin n → ℚ)
    (hy : Function.Injective y) (f : ℚ → ℚ) (hf : StrictAnti f) (i : Fin n) :
    scoreRank (fun j => f (y j)) i + scoreRank y i = n - 1 := by
  unfold scoreRank
  have h1 : (Finset.univ.filter (fun j => f (y j) < f (y i))) =
      (Finset.univ.filter (fun j => y i < y j)) := by
    refine Finset.filter_congr (fun j _ => ?_)
    simp [hf.lt_iff_lt]
  rw [h1, ← Finset.card_union_of_disjoint (by
    rw [Finset.disjoint_filter]
    intro k _ h2 h3
    exact absurd (h2.trans h3) (lt_irrefl _))]
  rw [← Finset.filter_or]
  have h2 : (Finset.univ.filter (fun j => y i < y j ∨ y j < y i)) =
      Finset.univ.erase i := by
    ext j
    simp only [Finset.mem_filter, Finset.mem_univ, true_and, Finset.mem_erase,
      and_true]
    constructor
    · rintro (h | h) <;> exact fun e => absurd (e ▸ h) (lt_irrefl _)
    · intro hne
      rcases lt_or_gt_of_ne (fun e : y j = y i => hne (hy e)) with h | h
      · exact Or.inr h
      · exact Or.inl h
  rw [h2, Finset.card_erase_of_mem (Finset.mem_univ i), Finset.card_univ,
    Fintype.card_fin]

theorem sum_range_cast (n : ℕ) :
    ∑ r ∈ Finset.range n, (r : ℚ) = n * (n - 1) / 2 := by
  induction n with
  | zero => simp
  | succ m ih =>
    rw [Finset.sum_range_succ, ih]
    push_cast
    ring

theorem sum_range_sq_cast (n : ℕ) :
    ∑ r ∈ Finset.range n, (r : ℚ) ^ 2 = n * (n - 1) * (2 * n - 1) / 6 := by
  induction n with
  | zero => simp
  | succ m ih =>
    rw [Finset.sum_range_succ, ih]
    push_cast
    ring

theorem sum_sq_dev_formula (n : ℕ) :
    3 * ∑ r ∈ Finset.range n, ((n : ℚ) - 1 - 2 * r) ^ 2 =
      n * ((n : ℚ) ^ 2 - 1) := by
  have hexp : ∀ r : ℕ, ((n : ℚ) - 1 - 2 * r) ^ 2 =
      ((n : ℚ) - 1) ^ 2 - 4 * ((n : ℚ) - 1) * (r : ℚ) + 4 * (r : ℚ) ^ 2 := by
    intro r
    ring
  rw [Finset.sum_congr rfl (fun r _ => hexp r)]
  simp only [Finset.sum_add_distrib, Finset.sum_sub_distrib,
    ← Finset.mul_sum, Finset.sum_const, Finset.card_range, nsmul_eq_mul]
  rw [sum_range_cast, sum_range_sq_cast]
  ring

/-- C6: on every date with at least 2 assets whose forward returns have
distinct ranks, a raw score that is a strictly increasing function of the
forward return has information coefficient (daily Spearman rank correlation)
exactly `1`, and exactly `-1` for a strictly decreasing function. -/
theorem spearmanIC_monotone (n : ℕ) (hn : 2 ≤ n) (x y : Fin n → ℚ)
    (hy : Function.Injective y) (f : ℚ → ℚ) (hxy : ∀ i, x i = f (y i)) :
    (StrictMono f → spearmanIC x y = 1) ∧
    (StrictAnti f → spearmanIC x y = -1) := by
  have hxf : x = fun j => f (y j) := funext hxy
  constructor
  · intro hf
    have hr : ∀ i, scoreRank x i = scoreRank y i := by
      intro i
      rw [hxf]
      exact scoreRank_eq_of_strictMono y f hf i
    have hsum : (∑ i, ((scoreRank x i : ℚ) - (scoreRank y i : ℚ)) ^ 2) = 0 := by
      refine Finset.sum_eq_zero (fun i _ => ?_)
      rw [hr i, sub_self]
      norm_num
    rw [spearmanIC, hsum]
    norm_num
  · intro hf
    have hr : ∀ i, scoreRank x i + scoreRank y i = n - 1 := by
      intro i
      rw [hxf]
      exact scoreRank_add_of_strictAnti y hy f hf i
    have hcast : ∀ i, (scoreRank x i : ℚ) =
        (n : ℚ) - 1 - (scoreRank y i : ℚ) := by
      intro i
      have h1 := hr i
      have h2 : scoreRank x i = n - 1 - scoreRank y i := by omega
      have h3 : scoreRank y i ≤ n - 1 := by omega
      rw [h2, Nat.cast_sub h3, Nat.cast_sub (by omega : 1 ≤ n)]
      push_cast
      ring
    have he : Function.Bijective (fun i : Fin n =>
        (⟨scoreRank y i, scoreRank_lt y i⟩ : Fin n)) := by
      rw [Fintype.bijective_iff_injective_and_card]
      refine ⟨?_, rfl⟩
      intro i j hij
      have h4 : scoreRank y i = scoreRank y j := by
        simpa [Fin.mk.injEq] using hij
      exact scoreRank_inj y hy h4
    have hsum : (∑ i, ((scoreRank x i : ℚ) - (scoreRank y i : ℚ)) ^ 2) =
        ∑ r ∈ Finset.range n, ((n : ℚ) - 1 - 2 * r) ^ 2 := by
      have hterm : ∀ i, ((scoreRank x i : ℚ) - (scoreRank y i : ℚ)) ^ 2 =
          ((n : ℚ) - 1 - 2 * (scoreRank y i : ℚ)) ^ 2 := by
        intro i
        rw [hcast i]
        ring
      rw [Finset.sum_congr rfl (fun i _ => hterm i),
        ← Fin.sum_univ_eq_sum_range (fun r => ((n : ℚ) - 1 - 2 * (r : ℚ)) ^ 2) n]
      exact Fintype.sum_bijective _ he _ _ (fun i => rfl)
    have hn2 : (2 : ℚ) ≤ (n : ℚ) := by exact_mod_cast hn
    have hnpos : (0 : ℚ) < (n : ℚ) := by linarith
    have hsq : (1 : ℚ) < (n : ℚ) ^ 2 := by nlinarith
    have hden : (n : ℚ) * ((n : ℚ) ^ 2 - 1) ≠ 0 :=
      mul_ne_zero (ne_of_gt hnpos) (ne_of_gt (by linarith))
    have hfor := sum_sq_dev_formula n
    have hS3 : ∑ r ∈ Finset.range n, ((n : ℚ) - 1 - 2 * r) ^ 2 =
        (n : ℚ) * ((n : ℚ) ^ 2 - 1) / 3 := by linarith
    rw [spearmanIC, hsum, hS3]
    field_simp
    ring

/-- Witness for C6: with 2 assets, forward returns 0 and 1 and score equal to
the forward return (a strictly increasing function of it), the information
coefficient is exactly 1. -/
theorem spearmanIC_monotone_witness :
    spearmanIC (fun i : Fin 2 => ((i : ℕ) : ℚ))
      (fun i : Fin 2 => ((i : ℕ) : ℚ)) = 1 :=
  (spearmanIC_monotone 2 le_rfl (fun i : Fin 2 => ((i : ℕ) : ℚ))
    (fun i : Fin 2 => ((i : ℕ) : ℚ))
    (fun i j h => Fin.ext (Nat.cast_injective h)) id
    (fun i => rfl)).1 strictMono_id

/-- C4: the engine raises if and only if a configuration problem is present —
a non-positive (zero) horizon, `Q < 2`, or no overlapping dates between the
factor and price sources — and with a valid configuration every per-record or
per-date data issue is absorbed by the data stage, which always completes
with a result structure carrying the diagnostics (dropped-record and
skipped-date counts) accumulated by `processDate`. -/
theorem runAnalysis_error_iff (Q : ℕ) (horizons : List ℕ)
    (factor : List FactorRow) (table : List (ℕ × ℕ × ℚ)) :
    ((∃ e, runAnalysis Q horizons factor table = Except.error e) ↔
      ((∃ h ∈ horizons, h = 0) ∨ Q < 2 ∨
        ∀ d ∈ factor.map FactorRow.date, d ∉ table.map (fun r => r.1))) ∧
    (¬((∃ h ∈ horizons, h = 0) ∨ Q < 2 ∨
        ∀ d ∈ factor.map FactorRow.date, d ∉ table.map (fun r => r.1)) →
      runAnalysis Q horizons factor table = Except.ok
        { records := ((((factor.map FactorRow.date).dedup).map
            (processDate Q horizons table factor)).map (fun t => t.1)).flatten
          diagnostics :=
            { droppedRecords := ((((factor.map FactorRow.date).dedup).map
                (processDate Q horizons table factor)).map
                  (fun t => t.2.1)).sum
              skippedDates := ((((factor.map FactorRow.date).dedup).map
                (processDate Q horizons table factor)).map
                  (fun t => t.2.2)).sum } }) := by
  unfold runAnalysis
  by_cases h1 : ∃ h ∈ horizons, h = 0
  · rw [if_pos h1]
    exact ⟨⟨fun _ => Or.inl h1, fun _ => ⟨_, rfl⟩⟩,
      fun hcon => absurd (Or.inl h1) hcon⟩
  · rw [if_neg h1]
    by_cases h2 : Q < 2
    · rw [if_pos h2]
      exact ⟨⟨fun _ => Or.inr (Or.inl h2), fun _ => ⟨_, rfl⟩⟩,
        fun hcon => absurd (Or.inr (Or.inl h2)) hcon⟩
    · rw [if_neg h2]
      by_cases h3 : ∀ d ∈ factor.map FactorRow.date,
          d ∉ table.map (fun r => r.1)
      · rw [if_pos h3]
        exact ⟨⟨fun _ => Or.inr (Or.inr h3), fun _ => ⟨_, rfl⟩⟩,
          fun hcon => absurd (Or.inr (Or.inr h3)) hcon⟩
      · rw [if_neg h3]
        refine ⟨⟨?_, ?_⟩, fun _ => rfl⟩
        · rintro ⟨e, he⟩
          exact absurd he (by simp)
        · intro hc
          rcases hc with hc | hc | hc
          · exact absurd hc h1
          · exact absurd hc h2
          · exact absurd hc h3

/-- Witness for C4: `Q = 1` terminates the run with a configuration error,
while a valid configuration over a 1-row factor and price table completes
with a result. -/
theorem runAnalysis_error_iff_witness :
    (∃ e, runAnalysis 1 [1] [] [] = Except.error e) ∧
    (∃ res : RunResult, runAnalysis 2 [1] [FactorRow.mk 0 0 1]
      [(0, 0, 1)] = Except.ok res) := by
  constructor
  · exact (runAnalysis_error_iff 1 [1] [] []).1.mpr
      (Or.inr (Or.inl (by norm_num)))
  · exact ⟨_, (runAnalysis_error_iff 2 [1] [FactorRow.mk 0 0 1]
      [(0, 0, 1)]).2 (by decide)⟩
